import Mathlib

/-!
Verification of the duplicate-file finder ("Walk example", walk4a.go and the
two-tree differ) against its natural-language specification.

The Go code is shallowly embedded: the filesystem is a tree of named nodes,
`filepath.Walk` plus the `visit` callback of `walkDir` becomes a recursive
function over the list of entries of a directory, goroutine spawning becomes
inclusion of the spawned task's output in the result (the channel interleaving
is modelled by permutations where order matters), and `log.Fatal` becomes the
error side of `Except`.
-/

set_option maxHeartbeats 1000000

/-- A (hash, path) result, `type pair struct \x7b hash string; path string \x7d`. -/
structure pair where
  hash : String
  path : String
deriving DecidableEq, Repr

/-- Error produced while enumerating a directory entry: either the Go sentinel
`os.ErrNotExist` (the entry vanished during the walk) or any other I/O error. -/
inductive WalkErr : Type where
  | notExist : WalkErr
  | other (msg : String) : WalkErr
deriving DecidableEq, Repr

/-- A filesystem node as seen by `filepath.Walk`: a regular file with contents
(bytes as naturals), a directory with entries, or an entry whose lstat during
enumeration fails with the given error. -/
inductive FSNode : Type where
  | file (name : String) (content : List Nat) : FSNode
  | dir (name : String) (children : List FSNode) : FSNode
  | errEntry (name : String) (e : WalkErr) : FSNode

/-- Name of a node (the base name of its path). -/
def nameOf : FSNode → String
  | FSNode.file n _ => n
  | FSNode.dir n _ => n
  | FSNode.errEntry n _ => n

/-- Path join `filepath.Join(dir, name)` for a directory path and an entry name, as
`filepath.Walk` builds the path passed to the visit callback. -/
def pjoin (dir name : String) : String := dir ++ "/" ++ name

/-- Suffix of a list of characters starting at the last dot, or `[]` if there
is no dot.  This is the scan `filepath.Ext` performs inside the final path
element. -/
def lastDotSuffix : List Char → List Char
  | [] => []
  | c :: rest =>
      let r := lastDotSuffix rest
      if r.isEmpty then (if c = '.' then c :: rest else []) else r

/-- Extension scan `filepath.Ext` applied to a path whose final element is `name` (entry names
contain no separator, so the extension is computed entirely inside `name`;
note `filepath.Ext(".git") = ".git"`). -/
def filepathExt (name : String) : String := String.mk (lastDotSuffix name.data)

/-- The three ignore predicates of the walker: `ignoreDirExts`, `ignoreDirs`
and `ignoreFiles` (global `ignores` maps in the Go source, configured before
the walk starts). -/
structure IgnoreSet where
  dirExts : List String
  dirs : List String
  files : List String

/-- The built-in `ignoreDirExts` table of walk4a.go. -/
def ignoreDirExts : List String :=
  [".app", ".pkg", ".git", ".lproj", ".pbproj", ".xcassets",
   ".framework", ".xcodeproj", ".xcworkspace", ".xcdatamodel"]

/-- The built-in (empty) `ignoreDirs` table of walk4a.go. -/
def ignoreDirs : List String := []

/-- The built-in `ignoreFiles` table of walk4a.go. -/
def ignoreFiles : List String := [".DS_Store", ".gitignore"]

/-- The walk4a.go ignore configuration. -/
def walk4aIgnores : IgnoreSet := ⟨ignoreDirExts, ignoreDirs, ignoreFiles⟩

/-- Ambient data the walker reads: the content digest function (`md5` plus hex
formatting, kept abstract since its value is a non-adversarial fingerprint)
and the ignore configuration. -/
structure WalkCtx where
  digest : List Nat → String
  ign : IgnoreSet

/-- Embedding of `walkDir(dir, ...)` of walk4a.go, applied to the list of
entries of `dir`.  `filepath.Walk` visits `dir` itself (skipped by the
`p != dir` guard) and then each entry in order:

* an entry whose lstat failed with `os.ErrNotExist` is skipped (`visit`
  returns nil) and the walk continues;
* any other lstat error is returned from `visit`, aborting this call's
  `filepath.Walk` (later siblings are not visited);
* a subdirectory is checked against `ignoreDirExts` (via `filepath.Ext`) and
  `ignoreDirs` (exact path); if ignored, `visit` returns `SkipDir`; otherwise
  a recursive `walkDir` goroutine is spawned (`wg.Add(1); go walkDir(...)`)
  and `SkipDir` is returned — the spawned walk's records are eventually
  produced but its returned error is discarded at the `go` statement;
* a regular file of positive size whose base name is not in `ignoreFiles`
  gets a `process` goroutine, which emits `hashFile(p)`.

The result is the list of pairs emitted by this walk and all walks and hash
tasks it transitively spawned, together with the error returned by this
call's own `filepath.Walk`. -/
def walkList (ctx : WalkCtx) (dir : String) : List FSNode → List pair × Option WalkErr
  | [] => ([], none)
  | FSNode.errEntry _ WalkErr.notExist :: rest => walkList ctx dir rest
  | FSNode.errEntry _ (WalkErr.other m) :: _ => ([], some (WalkErr.other m))
  | FSNode.file n c :: rest =>
      if 0 < c.length ∧ n ∉ ctx.ign.files then
        (⟨ctx.digest c, pjoin dir n⟩ :: (walkList ctx dir rest).1,
         (walkList ctx dir rest).2)
      else walkList ctx dir rest
  | FSNode.dir n cs :: rest =>
      if filepathExt n ∈ ctx.ign.dirExts ∨ pjoin dir n ∈ ctx.ign.dirs then
        walkList ctx dir rest
      else
        ((walkList ctx (pjoin dir n) cs).1 ++ (walkList ctx dir rest).1,
         (walkList ctx dir rest).2)

/-- The paths recorded by a walk. -/
def walkPaths (ctx : WalkCtx) (dir : String) (l : List FSNode) : List String :=
  (walkList ctx dir l).1.map pair.path

/-- True when no entry of the tree fails enumeration with an error other than
`os.ErrNotExist` (no fatal enumeration error can arise during the walk). -/
def noFatalErr : List FSNode → Bool
  | [] => true
  | FSNode.errEntry _ (WalkErr.other _) :: _ => false
  | FSNode.errEntry _ WalkErr.notExist :: rest => noFatalErr rest
  | FSNode.file _ _ :: rest => noFatalErr rest
  | FSNode.dir _ cs :: rest => noFatalErr cs && noFatalErr rest

/-- Modelled from the spec: "every regular, non-empty file under the root
whose basename is not in IgnoreSet and that does not lie under any ignored
directory".  A directory strictly below the root whose name's extension is in
`dirExts` or whose exact path is in `dirs` cuts off its whole subtree; a
remaining file is eligible when it is non-empty and its base name is not in
`files`. -/
def specEligiblePaths (ign : IgnoreSet) (dir : String) : List FSNode → List String
  | [] => []
  | FSNode.errEntry _ _ :: rest => specEligiblePaths ign dir rest
  | FSNode.file n c :: rest =>
      if 0 < c.length ∧ n ∉ ign.files then
        pjoin dir n :: specEligiblePaths ign dir rest
      else specEligiblePaths ign dir rest
  | FSNode.dir n cs :: rest =>
      if filepathExt n ∈ ign.dirExts ∨ pjoin dir n ∈ ign.dirs then
        specEligiblePaths ign dir rest
      else
        specEligiblePaths ign (pjoin dir n) cs ++ specEligiblePaths ign dir rest

/-- The collector's map state: `results` is Go's `map[string]fileList`,
modelled as an association list with at most one entry per hash. -/
def addPair : List (String × List String) → pair → List (String × List String)
  | [], pr => [(pr.hash, [pr.path])]
  | (k, fs) :: rest, pr =>
      if k = pr.hash then (k, fs ++ [pr.path]) :: rest
      else (k, fs) :: addPair rest pr

/-- Function `collect` of walk4a.go: fold the stream of pairs into the multi-map,
`hashes[pair.hash] = append(hashes[pair.hash], pair.path)`. -/
def collect (l : List pair) : List (String × List String) :=
  l.foldl addPair []

/-- Go map read `hashes[h]`: the file list stored under `h`, nil (empty) when
the key is absent. -/
def getR : List (String × List String) → String → List String
  | [], _ => []
  | (k, fs) :: rest, h => if k = h then fs else getR rest h

example :
    walkPaths ⟨fun c => if c = [1] then "aa" else "bb", walk4aIgnores⟩ "r"
      [FSNode.file "x.txt" [1],
       FSNode.dir "sub" [FSNode.file "y.txt" [2]],
       FSNode.dir "s.git" [FSNode.file "z.txt" [3]],
       FSNode.file "empty" [],
       FSNode.file ".DS_Store" [9]] =
    ["r/x.txt", "r/sub/y.txt"] := by
  simp [walkPaths, walkList, walk4aIgnores, pjoin, ignoreFiles, ignoreDirExts,
    ignoreDirs, filepathExt, lastDotSuffix]

example :
    collect [⟨"h1", "a"⟩, ⟨"h2", "b"⟩, ⟨"h1", "c"⟩] =
    [("h1", ["a", "c"]), ("h2", ["b"])] := by decide

/-- Function `searchTree` of walk4a.go: run the walk on the root directory's entries;
`log.Fatal(err)` on a non-nil error from the top-level `walkDir` (the run
aborts, no report), otherwise wait for the workers, close the channel and
return the collector's finished index. -/
def searchTree (ctx : WalkCtx) (dir : String) (l : List FSNode) :
    Except WalkErr (List (String × List String)) :=
  match (walkList ctx dir l).2 with
  | some e => Except.error e
  | none => Except.ok (collect (walkList ctx dir l).1)

theorem searchTree_ok (ctx : WalkCtx) (dir : String) (l : List FSNode)
    (prs : List pair) (h : walkList ctx dir l = (prs, none)) :
    searchTree ctx dir l = Except.ok (collect prs) := by
  simp [searchTree, h]

theorem searchTree_err (ctx : WalkCtx) (dir : String) (l : List FSNode)
    (prs : List pair) (e : WalkErr) (h : walkList ctx dir l = (prs, some e)) :
    searchTree ctx dir l = Except.error e := by
  simp [searchTree, h]

theorem getR_addPair (r : List (String × List String)) (pr : pair) (h : String) :
    getR (addPair r pr) h =
      if pr.hash = h then getR r h ++ [pr.path] else getR r h := by
  induction r with
  | nil =>
      by_cases hh : pr.hash = h <;> simp [addPair, getR, hh]
  | cons hd tl ih =>
      obtain ⟨k, fs⟩ := hd
      by_cases hk : k = pr.hash
      · by_cases hh : pr.hash = h
        · have hkh : k = h := hk.trans hh
          simp [addPair, getR, hk, hh, hkh]
        · have hkh : ¬ k = h := fun hc => hh (hk.symm.trans hc)
          simp [addPair, getR, hk, hh, hkh]
      · by_cases hh : k = h
        · have hph : ¬ pr.hash = h := fun hc => hk (hh.trans hc.symm)
          have hhp : ¬ h = pr.hash := fun hc => hph hc.symm
          simp [addPair, getR, hk, hh, hph, hhp]
        · simp [addPair, getR, hk, hh, ih]

theorem getR_foldl_addPair (l : List pair) (r : List (String × List String)) (h : String) :
    getR (l.foldl addPair r) h =
      getR r h ++ (l.filter (fun pr => pr.hash = h)).map pair.path := by
  induction l generalizing r with
  | nil => simp
  | cons pr tl ih =>
      by_cases hh : pr.hash = h <;>
        simp [List.foldl_cons, ih, getR_addPair, hh, List.filter_cons]

/-- The collector's finished group for a digest is exactly the stream's
records with that digest, in stream order. -/
theorem getR_collect (l : List pair) (h : String) :
    getR (collect l) h = (l.filter (fun pr => pr.hash = h)).map pair.path := by
  simp [collect, getR_foldl_addPair, getR]

/-- C5: for a fixed tree, any two interleavings of the result stream are
permutations of each other, and the resulting HashIndex has the same groups
(same digests, same member multiset per digest, order possibly different). -/
theorem hashIndex_run_order_independent (ctx : WalkCtx) (dir : String)
    (l : List FSNode) (run2 : List pair)
    (hperm : run2.Perm (walkList ctx dir l).1) :
    ∀ h : String,
      (getR (collect run2) h).Perm (getR (collect (walkList ctx dir l).1) h) := by
  intro h
  simp only [getR_collect]
  exact (hperm.filter _).map _

/-- The walk records exactly the spec-eligible paths (in enumeration order)
whenever no fatal enumeration error occurs in the tree. -/
theorem walkPaths_eq_spec (ctx : WalkCtx) (dir : String) (l : List FSNode)
    (h : noFatalErr l = true) :
    walkPaths ctx dir l = specEligiblePaths ctx.ign dir l := by
  induction dir, l using walkList.induct ctx with
  | case1 dir =>
      simp [walkPaths, walkList, specEligiblePaths]
  | case2 dir name rest ih =>
      simp only [noFatalErr] at h
      simpa [walkPaths, walkList, specEligiblePaths] using ih h
  | case3 dir name m tail =>
      simp [noFatalErr] at h
  | case4 dir n c rest hcond ih =>
      simp only [noFatalErr] at h
      simpa [walkPaths, walkList, specEligiblePaths, hcond] using ih h
  | case5 dir n c rest hcond ih =>
      simp only [noFatalErr] at h
      simpa [walkPaths, walkList, specEligiblePaths, hcond] using ih h
  | case6 dir n cs rest hcond ih =>
      simp only [noFatalErr, Bool.and_eq_true] at h
      simpa [walkPaths, walkList, specEligiblePaths, hcond] using ih h.2
  | case7 dir n cs rest hcond ih1 ih2 =>
      simp only [noFatalErr, Bool.and_eq_true] at h
      simp [walkPaths, walkList, specEligiblePaths, hcond] at ih1 ih2 ⊢
      rw [ih1 h.1, ih2 h.2]

theorem str_eq_of_data {s t : String} (h : s.data = t.data) : s = t := by
  cases s
  cases t
  exact congrArg String.mk h

theorem strData_append (s t : String) : (s ++ t).data = s.data ++ t.data := by
  cases s
  cases t
  rfl

theorem pjoin_data (d n : String) : (pjoin d n).data = d.data ++ '/' :: n.data := by
  have hslash : ("/" : String).data = ['/'] := rfl
  simp [pjoin, strData_append, hslash]

/-- A well-formed entry name: nonseparator characters only (real directory
entries never contain the path separator). -/
def noSlash (s : String) : Bool := s.data.all (fun c => c != '/')

/-- The entry names of a list of nodes. -/
def namesOf (l : List FSNode) : List String := l.map nameOf

@[simp] theorem namesOf_cons (c : FSNode) (l : List FSNode) :
    namesOf (c :: l) = nameOf c :: namesOf l := rfl

/-- Well-formedness of a directory tree as the OS presents it: entry names
contain no separator and siblings have pairwise distinct names. -/
def wfTree : List FSNode → Bool
  | [] => true
  | FSNode.file n _ :: rest =>
      noSlash n && decide (n ∉ namesOf rest) && wfTree rest
  | FSNode.errEntry n _ :: rest =>
      noSlash n && decide (n ∉ namesOf rest) && wfTree rest
  | FSNode.dir n cs :: rest =>
      noSlash n && decide (n ∉ namesOf rest) && wfTree cs && wfTree rest

theorem wfTree_parts (c : FSNode) (rest : List FSNode)
    (h : wfTree (c :: rest) = true) :
    noSlash (nameOf c) = true ∧ nameOf c ∉ namesOf rest ∧ wfTree rest = true := by
  cases c <;> simp_all [wfTree, nameOf]

theorem wfTree_dir_children (n : String) (cs rest : List FSNode)
    (h : wfTree (FSNode.dir n cs :: rest) = true) : wfTree cs = true := by
  simp_all [wfTree]

theorem wf_mem_noSlash (l : List FSNode) (n : String) (hwf : wfTree l = true)
    (hn : n ∈ namesOf l) : noSlash n = true := by
  induction l with
  | nil => simp [namesOf] at hn
  | cons c rest ih =>
      obtain ⟨h1, _, h3⟩ := wfTree_parts c rest hwf
      rw [namesOf_cons, List.mem_cons] at hn
      rcases hn with heq | hmem
      · exact heq ▸ h1
      · exact ih h3 hmem

theorem takeWhile_noSlash (a t : List Char) (ha : a.all (fun c => c != '/') = true)
    (ht : t = [] ∨ ∃ u, t = '/' :: u) :
    (a ++ t).takeWhile (fun c => c != '/') = a := by
  induction a with
  | nil =>
      rcases ht with h | ⟨u, h⟩ <;> subst h <;> simp [List.takeWhile]
  | cons c cs ih =>
      simp only [List.all_cons, Bool.and_eq_true] at ha
      simp [List.takeWhile_cons, ha.1, ih ha.2]

/-- Two first path segments made of separator-free names followed by nothing
or a separator agree iff the names agree. -/
theorem seg_eq {a b : String} {t t' : List Char}
    (hna : noSlash a = true) (hnb : noSlash b = true)
    (ht : t = [] ∨ ∃ u, t = '/' :: u) (ht' : t' = [] ∨ ∃ u, t' = '/' :: u)
    (h : a.data ++ t = b.data ++ t') : a = b := by
  have h2 := congrArg (List.takeWhile (fun c => c != '/')) h
  rw [takeWhile_noSlash a.data t hna ht, takeWhile_noSlash b.data t' hnb ht'] at h2
  exact str_eq_of_data h2

/-- Every spec-eligible path under `dir` starts with `dir`, a separator, the
name of one of the entries, and then either ends or continues with another
separator. -/
theorem specEligible_shape (ign : IgnoreSet) (dir : String) (l : List FSNode) :
    ∀ p ∈ specEligiblePaths ign dir l,
      ∃ n t, n ∈ namesOf l ∧ p.data = dir.data ++ '/' :: (n.data ++ t) ∧
        (t = [] ∨ ∃ u, t = '/' :: u) := by
  induction dir, l using specEligiblePaths.induct ign with
  | case1 dir => simp [specEligiblePaths]
  | case2 dir name e rest ih =>
      intro p hp
      simp only [specEligiblePaths] at hp
      obtain ⟨n, t, hn, hd, hs⟩ := ih p hp
      exact ⟨n, t, by simp [hn], hd, hs⟩
  | case3 dir n c rest hcond ih =>
      intro p hp
      simp only [specEligiblePaths, if_pos hcond, List.mem_cons] at hp
      rcases hp with heq | hmem
      · refine ⟨n, [], by simp [nameOf], ?_, Or.inl rfl⟩
        subst heq
        simp [pjoin_data]
      · obtain ⟨n', t, hn, hd, hs⟩ := ih p hmem
        exact ⟨n', t, by simp [hn], hd, hs⟩
  | case4 dir n c rest hcond ih =>
      intro p hp
      simp only [specEligiblePaths, if_neg hcond] at hp
      obtain ⟨n', t, hn, hd, hs⟩ := ih p hp
      exact ⟨n', t, by simp [hn], hd, hs⟩
  | case5 dir n cs rest hcond ih =>
      intro p hp
      simp only [specEligiblePaths, if_pos hcond] at hp
      obtain ⟨n', t, hn, hd, hs⟩ := ih p hp
      exact ⟨n', t, by simp [hn], hd, hs⟩
  | case6 dir n cs rest hcond ih1 ih2 =>
      intro p hp
      simp only [specEligiblePaths, if_neg hcond, List.mem_append] at hp
      rcases hp with hmem | hmem
      · obtain ⟨m, t, hm, hd, _⟩ := ih1 p hmem
        refine ⟨n, '/' :: (m.data ++ t), by simp [nameOf], ?_, Or.inr ⟨_, rfl⟩⟩
        rw [hd, pjoin_data]
        simp
      · obtain ⟨n', t, hn, hd, hs⟩ := ih2 p hmem
        exact ⟨n', t, by simp [hn], hd, hs⟩

/-- Under a well-formed tree the spec-eligible paths are pairwise distinct. -/
theorem specEligible_nodup (ign : IgnoreSet) (dir : String) (l : List FSNode)
    (hwf : wfTree l = true) : (specEligiblePaths ign dir l).Nodup := by
  induction dir, l using specEligiblePaths.induct ign with
  | case1 dir => simp [specEligiblePaths]
  | case2 dir name e rest ih =>
      obtain ⟨_, _, h3⟩ := wfTree_parts _ rest hwf
      simpa [specEligiblePaths] using ih h3
  | case3 dir n c rest hcond ih =>
      obtain ⟨h1, h2, h3⟩ := wfTree_parts _ rest hwf
      simp only [specEligiblePaths, if_pos hcond]
      refine List.Nodup.cons ?_ (ih h3)
      intro hmem
      obtain ⟨n', t, hn', hd, hs⟩ := specEligible_shape ign dir rest _ hmem
      rw [pjoin_data] at hd
      have hseg : n.data ++ ([] : List Char) = n'.data ++ t := by
        have := List.append_cancel_left hd
        simpa using this
      have : n = n' :=
        seg_eq h1 (wf_mem_noSlash rest n' h3 hn') (Or.inl rfl) hs hseg
      exact h2 (this ▸ hn')
  | case4 dir n c rest hcond ih =>
      obtain ⟨_, _, h3⟩ := wfTree_parts _ rest hwf
      simpa [specEligiblePaths, if_neg hcond] using ih h3
  | case5 dir n cs rest hcond ih =>
      obtain ⟨_, _, h3⟩ := wfTree_parts _ rest hwf
      simpa [specEligiblePaths, if_pos hcond] using ih h3
  | case6 dir n cs rest hcond ih1 ih2 =>
      obtain ⟨h1, h2, h3⟩ := wfTree_parts _ rest hwf
      have hcs : wfTree cs = true := wfTree_dir_children n cs rest hwf
      simp only [specEligiblePaths, if_neg hcond]
      refine List.Nodup.append (ih1 hcs) (ih2 h3) ?_
      intro p hp1 hp2
      obtain ⟨m, t, hm, hd1, _⟩ := specEligible_shape ign (pjoin dir n) cs p hp1
      obtain ⟨n', t', hn', hd2, hs2⟩ := specEligible_shape ign dir rest p hp2
      rw [pjoin_data] at hd1
      simp only [List.append_assoc, List.cons_append] at hd1
      have hseg : n.data ++ ('/' :: (m.data ++ t)) = n'.data ++ t' := by
        have := hd1.symm.trans hd2
        have h5 := List.append_cancel_left this
        simpa using h5
      have : n = n' :=
        seg_eq h1 (wf_mem_noSlash rest n' h3 hn') (Or.inr ⟨_, rfl⟩) hs2 hseg
      exact h2 (this ▸ hn')

/-- C1: in an error-free, well-formed tree, the walk records exactly the
regular, non-empty, non-ignored files not cut off by an ignored directory:
the recorded paths coincide with the spec-eligible paths and each eligible
path is recorded exactly once (no omission, no duplicate hashing). -/
theorem walk_hashes_each_eligible_file_exactly_once (ctx : WalkCtx) (dir : String)
    (l : List FSNode) (hnf : noFatalErr l = true) (hwf : wfTree l = true) :
    walkPaths ctx dir l = specEligiblePaths ctx.ign dir l ∧
      ∀ p ∈ specEligiblePaths ctx.ign dir l, (walkPaths ctx dir l).count p = 1 := by
  have heq := walkPaths_eq_spec ctx dir l hnf
  refine ⟨heq, fun p hp => ?_⟩
  rw [heq]
  exact List.count_eq_one_of_mem (specEligible_nodup ctx.ign dir l hwf) hp

/-- A fixed demonstration digest and the walk4a ignore configuration. -/
def demoCtx : WalkCtx := ⟨fun _ => "d", walk4aIgnores⟩

/-- A demonstration tree: an eligible file, an eligible file in a
subdirectory, a vanished entry, an ignored `.git`-extension directory, an
empty file and an ignored basename. -/
def demoTree : List FSNode :=
  [FSNode.file "x.txt" [1],
   FSNode.dir "sub" [FSNode.file "y.txt" [2], FSNode.errEntry "gone" WalkErr.notExist],
   FSNode.dir "s.git" [FSNode.file "z.txt" [3]],
   FSNode.file "empty.txt" [],
   FSNode.file ".DS_Store" [9]]

theorem walk_hashes_each_eligible_file_exactly_once_witness :
    noFatalErr demoTree = true ∧ wfTree demoTree = true ∧
      (walkPaths demoCtx "r" demoTree = specEligiblePaths demoCtx.ign "r" demoTree ∧
        ∀ p ∈ specEligiblePaths demoCtx.ign "r" demoTree,
          (walkPaths demoCtx "r" demoTree).count p = 1) := by
  have h1 : noFatalErr demoTree = true := by simp [demoTree, noFatalErr]
  have h2 : wfTree demoTree = true := by
    simp +decide [demoTree, wfTree, namesOf, nameOf, noSlash]
  exact ⟨h1, h2, walk_hashes_each_eligible_file_exactly_once demoCtx "r" demoTree h1 h2⟩

/-- The record stream of `demoTree`, as delivered in a different order by a
second run. -/
def demoPairsRev : List pair := [⟨"d", "r/sub/y.txt"⟩, ⟨"d", "r/x.txt"⟩]

theorem hashIndex_run_order_independent_witness :
    demoPairsRev.Perm (walkList demoCtx "r" demoTree).1 ∧
      ∀ h : String,
        (getR (collect demoPairsRev) h).Perm
          (getR (collect (walkList demoCtx "r" demoTree).1) h) := by
  have hw : (walkList demoCtx "r" demoTree).1 =
      [⟨"d", "r/x.txt"⟩, ⟨"d", "r/sub/y.txt"⟩] := by
    simp [demoCtx, demoTree, walkList, walk4aIgnores, pjoin, ignoreFiles,
      ignoreDirExts, ignoreDirs, filepathExt, lastDotSuffix]
  have hp : demoPairsRev.Perm (walkList demoCtx "r" demoTree).1 := by
    rw [hw]
    decide
  exact ⟨hp, hashIndex_run_order_independent demoCtx "r" demoTree demoPairsRev hp⟩

theorem walkList_err_of_mem (ctx : WalkCtx) (dir : String) (l : List FSNode)
    (nm m : String) (hm : FSNode.errEntry nm (WalkErr.other m) ∈ l) :
    ∃ e, (walkList ctx dir l).2 = some e := by
  induction l with
  | nil => simp at hm
  | cons c rest ih =>
      rcases List.mem_cons.mp hm with heq | hmem
      · cases heq
        refine ⟨WalkErr.other m, ?_⟩
        simp [walkList]
      · cases c with
        | errEntry nm' e' =>
            cases e' with
            | notExist =>
                obtain ⟨e, he⟩ := ih hmem
                exact ⟨e, by simpa [walkList] using he⟩
            | other m' =>
                refine ⟨WalkErr.other m', ?_⟩
                simp [walkList]
        | file n' c' =>
            obtain ⟨e, he⟩ := ih hmem
            by_cases hc : 0 < c'.length ∧ n' ∉ ctx.ign.files <;>
              exact ⟨e, by simpa [walkList, hc] using he⟩
        | dir n' cs' =>
            obtain ⟨e, he⟩ := ih hmem
            by_cases hc : filepathExt n' ∈ ctx.ign.dirExts ∨ pjoin dir n' ∈ ctx.ign.dirs <;>
              exact ⟨e, by simpa [walkList, hc] using he⟩

/-- A tree whose fatal enumeration error sits inside a subdirectory: the
spawned subdirectory walk returns the error, but the `go walkDir(...)`
statement discards it. -/
def raceTree : List FSNode :=
  [FSNode.file "a.txt" [1],
   FSNode.dir "sub" [FSNode.errEntry "x" (WalkErr.other "input/output error"),
                     FSNode.file "late.txt" [2]]]

/-- C2 counterexample: an enumeration error other than not-exist occurs while
walking `sub` (`noFatalErr raceTree = false`), yet the run does not abort: it
returns a normal report, missing `sub`'s remaining entries, because the
spawned `walkDir` goroutine's returned error is discarded. -/
theorem subtree_enum_error_not_fatal_cex :
    noFatalErr raceTree = false ∧
      searchTree demoCtx "r" raceTree = Except.ok [("d", ["r/a.txt"])] := by
  have hw : walkList demoCtx "r" raceTree = ([⟨"d", "r/a.txt"⟩], none) := by
    simp [demoCtx, raceTree, walkList, walk4aIgnores, pjoin, ignoreFiles,
      ignoreDirExts, ignoreDirs, filepathExt, lastDotSuffix]
  constructor
  · simp [raceTree, noFatalErr]
  · rw [searchTree_ok demoCtx "r" raceTree _ hw]
    simp [collect, addPair]

/-- C2 (amended): an entry that vanished (`os.ErrNotExist`) is skipped
silently and the walk continues; any other enumeration error among the root's
direct entries makes the whole run abort fatally with no report; but an
enumeration error inside a spawned subdirectory walk only terminates that
subtree's walk — its error is discarded and the run continues. -/
theorem enum_error_handling (ctx : WalkCtx) (dir : String) :
    (∀ pre post nm,
        walkList ctx dir (pre ++ FSNode.errEntry nm WalkErr.notExist :: post) =
          walkList ctx dir (pre ++ post)) ∧
    (∀ l nm m, FSNode.errEntry nm (WalkErr.other m) ∈ l →
        ∃ e, searchTree ctx dir l = Except.error e) ∧
    (∀ n cs rest, ¬(filepathExt n ∈ ctx.ign.dirExts ∨ pjoin dir n ∈ ctx.ign.dirs) →
        (walkList ctx dir (FSNode.dir n cs :: rest)).2 =
          (walkList ctx dir rest).2) := by
  refine ⟨?_, ?_, ?_⟩
  · intro pre post nm
    induction pre with
    | nil => simp [walkList]
    | cons c rest ih =>
        cases c with
        | errEntry nm' e' =>
            cases e' with
            | notExist => simpa [walkList] using ih
            | other m' => simp [walkList]
        | file n' c' =>
            by_cases hc : 0 < c'.length ∧ n' ∉ ctx.ign.files <;>
              simp [walkList, hc, ih]
        | dir n' cs' =>
            by_cases hc : filepathExt n' ∈ ctx.ign.dirExts ∨ pjoin dir n' ∈ ctx.ign.dirs <;>
              simp [walkList, hc, ih]
  · intro l nm m hm
    obtain ⟨e, he⟩ := walkList_err_of_mem ctx dir l nm m hm
    exact ⟨e, by simp [searchTree, he]⟩
  · intro n cs rest hc
    simp [walkList, hc]

theorem enum_error_handling_witness :
    (walkList demoCtx "r"
        ([FSNode.file "a.txt" [1]] ++ FSNode.errEntry "gone" WalkErr.notExist :: []) =
      walkList demoCtx "r" ([FSNode.file "a.txt" [1]] ++ [])) ∧
    (∃ e, searchTree demoCtx "r" [FSNode.errEntry "x" (WalkErr.other "EIO")] =
      Except.error e) ∧
    ((walkList demoCtx "r"
        (FSNode.dir "sub" [FSNode.errEntry "x" (WalkErr.other "EIO")] :: [])).2 =
      (walkList demoCtx "r" []).2) := by
  obtain ⟨h1, h2, h3⟩ := enum_error_handling demoCtx "r"
  exact ⟨h1 [FSNode.file "a.txt" [1]] [] "gone",
    h2 _ "x" "EIO" (by simp),
    h3 "sub" [FSNode.errEntry "x" (WalkErr.other "EIO")] [] (by decide)⟩

theorem specEligible_cons (ign : IgnoreSet) (dir : String) (c : FSNode)
    (rest : List FSNode) :
    specEligiblePaths ign dir (c :: rest) =
      specEligiblePaths ign dir [c] ++ specEligiblePaths ign dir rest := by
  cases c with
  | file n ct =>
      by_cases hc : 0 < ct.length ∧ n ∉ ign.files <;>
        simp [specEligiblePaths, hc]
  | dir n cs =>
      by_cases hc : filepathExt n ∈ ign.dirExts ∨ pjoin dir n ∈ ign.dirs <;>
        simp [specEligiblePaths, hc]
  | errEntry n e => simp [specEligiblePaths]

theorem specEligible_mem_split (ign : IgnoreSet) (dir : String) (l : List FSNode)
    (p : String) (hp : p ∈ specEligiblePaths ign dir l) :
    ∃ c ∈ l, p ∈ specEligiblePaths ign dir [c] := by
  induction l with
  | nil => simp [specEligiblePaths] at hp
  | cons c rest ih =>
      rw [specEligible_cons, List.mem_append] at hp
      rcases hp with h | h
      · exact ⟨c, List.mem_cons_self c rest, h⟩
      · obtain ⟨c', hc', hp'⟩ := ih h
        exact ⟨c', List.mem_cons_of_mem c hc', hp'⟩

theorem wf_unique_name (l : List FSNode) (hwf : wfTree l = true)
    (c1 c2 : FSNode) (h1 : c1 ∈ l) (h2 : c2 ∈ l)
    (hn : nameOf c1 = nameOf c2) : c1 = c2 := by
  induction l with
  | nil => simp at h1
  | cons c rest ih =>
      obtain ⟨_, hnm, hrest⟩ := wfTree_parts c rest hwf
      rcases List.mem_cons.mp h1 with e1 | m1 <;> rcases List.mem_cons.mp h2 with e2 | m2
      · rw [e1, e2]
      · exfalso
        apply hnm
        rw [e1] at hn
        exact hn ▸ List.mem_map_of_mem nameOf m2
      · exfalso
        apply hnm
        rw [e2] at hn
        exact hn ▸ List.mem_map_of_mem nameOf m1
      · exact ih hrest m1 m2

/-- C4 counterexample: the walker never checks the walk root itself against
the ignore sets (`visit` tests `p != dir` first): searching a root directory
whose own name carries the ignored extension ".git" still hashes and records
the file inside it even though the claim says its whole subtree contributes
nothing. -/
theorem ignored_root_still_walked_cex :
    filepathExt "proj.git" ∈ demoCtx.ign.dirExts ∧
      walkPaths demoCtx "proj.git" [FSNode.file "a.txt" [1]] = ["proj.git/a.txt"] := by
  constructor
  · decide
  · simp [walkPaths, walkList, demoCtx, walk4aIgnores, ignoreFiles, pjoin]

/-- C4 (amended): every directory encountered as an entry during a walk —
any directory strictly below a walk root, `dir` here ranging over every
(recursive) `walkDir` invocation; the root of an invocation itself is never
checked — whose name's extension is in `dirExts` or whose exact path is in
`dirs` is not descended into, and no path below it is ever recorded, even if
eligible files exist inside it. -/
theorem ignored_subdir_contributes_nothing (ctx : WalkCtx) (dir : String)
    (l : List FSNode) (n : String) (cs : List FSNode)
    (hnf : noFatalErr l = true) (hwf : wfTree l = true)
    (hmem : FSNode.dir n cs ∈ l)
    (hig : filepathExt n ∈ ctx.ign.dirExts ∨ pjoin dir n ∈ ctx.ign.dirs) :
    ∀ p ∈ walkPaths ctx dir l, ¬ ∃ s : List Char,
      p.data = (pjoin dir n).data ++ '/' :: s := by
  intro p hp hex
  obtain ⟨s, hps⟩ := hex
  rw [walkPaths_eq_spec ctx dir l hnf] at hp
  obtain ⟨c, hc, hpc⟩ := specEligible_mem_split ctx.ign dir l p hp
  obtain ⟨n', t, hn', hd, hs⟩ := specEligible_shape ctx.ign dir [c] p hpc
  have hn'c : n' = nameOf c := by simpa [namesOf] using hn'
  rw [pjoin_data] at hps
  have hps' : p.data = dir.data ++ '/' :: (n.data ++ '/' :: s) := by
    simpa [List.append_assoc] using hps
  rw [hn'c] at hd
  have h0 : dir.data ++ '/' :: ((nameOf c).data ++ t) =
      dir.data ++ '/' :: (n.data ++ '/' :: s) := hd.symm.trans hps'
  have h1 := List.append_cancel_left h0
  injection h1 with _ h2
  have hcn : nameOf c = n := by
    refine seg_eq ?_ ?_ hs (Or.inr ⟨s, rfl⟩) h2
    · exact wf_mem_noSlash l (nameOf c) hwf (List.mem_map_of_mem nameOf hc)
    · exact wf_mem_noSlash l n hwf (List.mem_map_of_mem nameOf hmem)
  have hceq : c = FSNode.dir n cs :=
    wf_unique_name l hwf c (FSNode.dir n cs) hc hmem hcn
  rw [hceq] at hpc
  simp [specEligiblePaths, hig] at hpc

theorem ignored_subdir_contributes_nothing_witness :
    noFatalErr demoTree = true ∧ wfTree demoTree = true ∧
      FSNode.dir "s.git" [FSNode.file "z.txt" [3]] ∈ demoTree ∧
      (filepathExt "s.git" ∈ demoCtx.ign.dirExts ∨
        pjoin "r" "s.git" ∈ demoCtx.ign.dirs) ∧
      ∀ p ∈ walkPaths demoCtx "r" demoTree, ¬ ∃ s : List Char,
        p.data = (pjoin "r" "s.git").data ++ '/' :: s := by
  have h1 : noFatalErr demoTree = true := by simp [demoTree, noFatalErr]
  have h2 : wfTree demoTree = true := by
    simp +decide [demoTree, wfTree, namesOf, nameOf, noSlash]
  have h3 : FSNode.dir "s.git" [FSNode.file "z.txt" [3]] ∈ demoTree := by
    simp [demoTree]
  have h4 : filepathExt "s.git" ∈ demoCtx.ign.dirExts ∨
      pjoin "r" "s.git" ∈ demoCtx.ign.dirs := Or.inl (by decide)
  exact ⟨h1, h2, h3, h4,
    ignored_subdir_contributes_nothing demoCtx "r" demoTree "s.git"
      [FSNode.file "z.txt" [3]] h1 h2 h3 h4⟩

/-- State of the shared permit pool `limits := make(chan bool, nworkers)`:
how many `walkDir` tasks and how many `process` (hash) tasks currently hold
a permit — have completed their `limits <- true` without yet doing
`<-limits`. -/
structure PoolState where
  walkers : Nat
  hashers : Nat
deriving DecidableEq, Repr

/-- Permits currently drawn from the single shared pool, both task kinds
combined. -/
def PoolState.held (s : PoolState) : Nat := s.walkers + s.hashers

/-- Events on the shared buffered channel: a send (`limits <- true`, in
`walkDir` before `filepath.Walk` and in `process` before hashing) can only
complete while the buffer holds fewer than `cap` values — a send on a full
buffered channel blocks; a receive (`<-limits`, in `walkDir`'s deferred
function and in `process` after hashing) requires a buffered value. Both
directory-descent tasks and hash tasks draw from the same channel. -/
inductive PoolStep (cap : Nat) : PoolState → PoolState → Prop
  | acquireWalk (s : PoolState) : s.held < cap →
      PoolStep cap s ⟨s.walkers + 1, s.hashers⟩
  | acquireHash (s : PoolState) : s.held < cap →
      PoolStep cap s ⟨s.walkers, s.hashers + 1⟩
  | releaseWalk (s : PoolState) : 0 < s.walkers →
      PoolStep cap s ⟨s.walkers - 1, s.hashers⟩
  | releaseHash (s : PoolState) : 0 < s.hashers →
      PoolStep cap s ⟨s.walkers, s.hashers - 1⟩

/-- Pool states reachable from the empty pool a run starts with. -/
inductive PoolReach (cap : Nat) : PoolState → Prop
  | init : PoolReach cap ⟨0, 0⟩
  | step {s t : PoolState} : PoolReach cap s → PoolStep cap s t → PoolReach cap t

/-- C6: at every reachable instant, the permits held simultaneously by all
in-flight tasks — directory-descent and file-hash tasks combined, drawing
from the one shared pool — never exceed the capacity fixed at construction
of the `limits` channel. -/
theorem limiter_permits_bounded (cap : Nat) (s : PoolState)
    (h : PoolReach cap s) : s.held ≤ cap := by
  induction h with
  | init => simp [PoolState.held]
  | @step s t hr hs ih =>
      cases hs with
      | acquireWalk hlt =>
          show s.walkers + 1 + s.hashers ≤ cap
          simp [PoolState.held] at hlt ih
          omega
      | acquireHash hlt =>
          show s.walkers + (s.hashers + 1) ≤ cap
          simp [PoolState.held] at hlt ih
          omega
      | releaseWalk hpos =>
          show s.walkers - 1 + s.hashers ≤ cap
          simp [PoolState.held] at ih
          omega
      | releaseHash hpos =>
          show s.walkers + (s.hashers - 1) ≤ cap
          simp [PoolState.held] at ih
          omega

theorem limiter_permits_bounded_witness :
    PoolReach 2 ⟨1, 1⟩ ∧ PoolState.held ⟨1, 1⟩ ≤ 2 := by
  have hr : PoolReach 2 ⟨1, 1⟩ :=
    PoolReach.step
      (PoolReach.step PoolReach.init (PoolStep.acquireWalk ⟨0, 0⟩ (by decide)))
      (PoolStep.acquireHash ⟨1, 0⟩ (by decide))
  exact ⟨hr, limiter_permits_bounded 2 ⟨1, 1⟩ hr⟩

/-- State of one `searchTree` run's completion tracking: `counter` is the
WaitGroup value, `live` the number of spawned walk/hash tasks that have not
yet executed their final `wg.Done()`, `closed` whether `close(pairs)` has
happened, and `lateSend` records whether any task ever sent a record on the
stream after it was closed. -/
structure RunState where
  counter : Int
  live : Nat
  closed : Bool
  lateSend : Bool
deriving DecidableEq, Repr

/-- Events of a run. `spawn`: a live task executes `wg.Add(1)` and only then
`go walkDir(...)` / `go process(...)` — the increment is synchronous in the
spawning task, so a task is counted before it can possibly run. `send`: a
live task sends a record on `pairs`; were the channel closed, this would be
recorded as a late send. `finish`: a task's last action is its `wg.Done()`
(deferred in `walkDir`, final statement of `process`), after which it neither
sends nor spawns. `close`: the orchestrator runs `close(pairs)` only after
`wg.Wait()` returned, i.e. only with the counter at zero. -/
inductive RunStep : RunState → RunState → Prop
  | spawn (s : RunState) : 0 < s.live →
      RunStep s ⟨s.counter + 1, s.live + 1, s.closed, s.lateSend⟩
  | send (s : RunState) : 0 < s.live →
      RunStep s ⟨s.counter, s.live, s.closed, s.lateSend || s.closed⟩
  | finish (s : RunState) : 0 < s.live →
      RunStep s ⟨s.counter - 1, s.live - 1, s.closed, s.lateSend⟩
  | close (s : RunState) : s.counter = 0 →
      RunStep s ⟨s.counter, s.live, true, s.lateSend⟩

/-- Run states reachable from the start of `searchTree`: the orchestrator
has done `wg.Add(1)` and invoked the root `walkDir` — one live counted task,
stream open, no late send. -/
inductive RunReach : RunState → Prop
  | init : RunReach ⟨1, 1, false, false⟩
  | step {s t : RunState} : RunReach s → RunStep s t → RunReach t

/-- C7: in every reachable state the WaitGroup counter equals the number of
live tasks (so it is never negative and reaches zero only when every spawned
task has finished), the stream is closed only once no task is live, and
consequently no record is ever sent after the close — any send after the
close would be a reachable state with `lateSend = true`. -/
theorem completion_counter_correct (s : RunState) (h : RunReach s) :
    s.counter = s.live ∧ 0 ≤ s.counter ∧
      (s.closed = true → s.live = 0) ∧ s.lateSend = false := by
  induction h with
  | init => simp
  | @step s t hr hs ih =>
      obtain ⟨h1, h2, h3, h4⟩ := ih
      cases hs with
      | spawn hl =>
          refine ⟨?_, ?_, ?_, h4⟩
          · show s.counter + 1 = ((s.live + 1 : Nat) : Int)
            omega
          · show 0 ≤ s.counter + 1
            omega
          · intro hc
            exact absurd (h3 hc) (by omega)
      | send hl =>
          have hcl : s.closed = false := by
            cases hcl : s.closed
            · rfl
            · exact absurd (h3 hcl) (by omega)
          exact ⟨h1, h2, by simpa using h3, by simp [h4, hcl]⟩
      | finish hl =>
          refine ⟨?_, ?_, ?_, h4⟩
          · show s.counter - 1 = ((s.live - 1 : Nat) : Int)
            omega
          · show 0 ≤ s.counter - 1
            omega
          · intro hc
            exact absurd (h3 hc) (by omega)
      | close hz =>
          have hl0 : s.live = 0 := by omega
          exact ⟨h1, h2, fun _ => hl0, h4⟩

theorem completion_counter_correct_witness :
    RunReach ⟨0, 0, true, false⟩ ∧
      ((0 : Int) = ((0 : Nat) : Int) ∧ (0 : Int) ≤ 0 ∧
        (true = true → (0 : Nat) = 0) ∧ false = false) := by
  have s1 : RunReach ⟨2, 2, false, false⟩ :=
    RunReach.step RunReach.init (RunStep.spawn ⟨1, 1, false, false⟩ (by decide))
  have s2 : RunReach ⟨1, 1, false, false⟩ :=
    RunReach.step s1 (RunStep.finish ⟨2, 2, false, false⟩ (by decide))
  have s3 : RunReach ⟨0, 0, false, false⟩ :=
    RunReach.step s2 (RunStep.finish ⟨1, 1, false, false⟩ (by decide))
  have s4 : RunReach ⟨0, 0, true, false⟩ :=
    RunReach.step s3 (RunStep.close ⟨0, 0, false, false⟩ (by decide))
  exact ⟨s4, completion_counter_correct ⟨0, 0, true, false⟩ s4⟩

/-- Outcome of `os.Open`: an open handle on the file's bytes, the
`os.ErrNotExist` sentinel (file no longer exists), or another I/O error. -/
inductive OpenRes : Type where
  | ok (content : List Nat) : OpenRes
  | errNotExist : OpenRes
  | errOther (msg : String) : OpenRes

/-- Streaming copy `io.Copy(h, f)` reading all bytes of an `*os.File` into the digest:
on the nil handle left by a failed `os.Open`, `(*os.File).Read` reports
`os.ErrInvalid` ("invalid argument"); on an open handle it streams all
bytes. -/
def ioCopyFromFile : Option (List Nat) → Except String (List Nat)
  | none => Except.error "invalid argument"
  | some c => Except.ok c

/-- Body of `hashFile` after `os.Open`: `io.Copy` then `log.Fatal` on a copy
error, else return the formatted digest with the path. -/
def hashFileBody (digest : List Nat → String) (path : String)
    (f : Option (List Nat)) : Except String pair :=
  match ioCopyFromFile f with
  | Except.error m => Except.error m
  | Except.ok c => Except.ok ⟨digest c, path⟩

/-- Function `hashFile` of walk4a.go: `log.Fatal(err)` when `os.Open` fails with an
error other than the `os.ErrNotExist` sentinel; otherwise it proceeds — with
a nil handle when the error was the sentinel — to the copy/digest body.
`Except.error` models `log.Fatal` (the whole run aborts). -/
def hashFile (digest : List Nat → String) (path : String)
    (r : OpenRes) : Except String pair :=
  match r with
  | OpenRes.errOther m => Except.error m
  | OpenRes.errNotExist => hashFileBody digest path none
  | OpenRes.ok content => hashFileBody digest path (some content)

/-- C3 (code bug): when the file no longer exists at open time, the hash task
does not skip: `hashFile` skips only the `log.Fatal` after `os.Open` and then
runs `io.Copy` on the nil handle, whose "invalid argument" error is fatal —
the run aborts instead of continuing. Any other open error is fatal too, as
the claim states. -/
theorem hashFile_vanished_file_fatal :
    hashFile (fun _ => "d") "r/a.txt" OpenRes.errNotExist =
      Except.error "invalid argument" ∧
    (∀ digest path, ∃ m,
      hashFile digest path OpenRes.errNotExist = Except.error m) ∧
    (∀ digest path m,
      hashFile digest path (OpenRes.errOther m) = Except.error m) := by
  exact ⟨rfl, fun _ _ => ⟨_, rfl⟩, fun _ _ _ => rfl⟩

/-- Prefix test `strings.HasPrefix(v, path)`: `v` begins with `path`. -/
def strHasPrefix (v path : String) : Bool := path.data.isPrefixOf v.data

/-- Function `removeWithPrefix` of the two-tree differ: keep only the paths that do
not begin with `path` (`strings.HasPrefix(v, path)` dropped). -/
def removeWithPrefix (paths : List String) (path : String) : List String :=
  paths.filter (fun v => ! strHasPrefix v path)

theorem foldl_removeWithPrefix_nil (ignDirs : List String) :
    ignDirs.foldl removeWithPrefix [] = [] := by
  induction ignDirs with
  | nil => rfl
  | cons d rest ih => simpa [removeWithPrefix] using ih

/-- Go map read `dir1Hashes[file]` on tree A's path → digest index; the zero
value "" for a missing key. -/
def getHash (a : List (String × String)) (file : String) : String :=
  match a.find? (fun e => e.1 = file) with
  | some e => e.2
  | none => ""

/-- Go two-value map read `files, ok := dir2Hashes[hash]` on tree B's
digest → paths index. -/
def findGroup (b : List (String × List String)) (h : String) : Option (List String) :=
  match b.find? (fun e => e.1 = h) with
  | some e => some e.2
  | none => none

/-- Per-file decision of the differ's two-tree report loop: `true` when the
file is printed. Dup mode: the digest's B-group exists and, after
`removeWithPrefix` filtering with every configured ignore directory, is
nonempty (`continue` otherwise). Default mode: the digest has no B-group;
the `else` branch's ignore filter operates on the nil `files` value (the
lookup failed), so it never suppresses the print. -/
def differReports (dup useIgnore : Bool) (ignDirs : List String)
    (b : List (String × List String)) (hash : String) : Bool :=
  match findGroup b hash with
  | some files =>
      if dup then
        (if useIgnore then ignDirs.foldl removeWithPrefix files else files).length != 0
      else false
  | none =>
      if dup then false
      else
        (if useIgnore then ignDirs.foldl removeWithPrefix ([] : List String)
         else ([] : List String)).length = 0

/-- The tree-A files printed by the differ's two-tree loop. The loop runs
over A's keys (the `sortfold` case-insensitive ordering only permutes report
lines and is not modelled). -/
def differReport (dup useIgnore : Bool) (ignDirs : List String)
    (a : List (String × String)) (b : List (String × List String)) : List String :=
  (a.map Prod.fst).filter
    (fun file => differReports dup useIgnore ignDirs b (getHash a file))

/-- Modelled from the spec (for comparison): a path of A is a match when its
digest exists in B's HashIndex after removing the B-side paths whose prefix
is a configured excluded directory — a match list emptied by the filtering
counts as no match — and otherwise it is A-only. -/
def specClassifiedMatch (useIgnore : Bool) (ignDirs : List String)
    (b : List (String × List String)) (hash : String) : Bool :=
  match findGroup b hash with
  | some files =>
      (if useIgnore then ignDirs.foldl removeWithPrefix files else files).length != 0
  | none => false

/-- Modelled from the spec (for comparison): dup mode reports the matches,
default mode reports the A-only entries (the complement). -/
def specReport (dup useIgnore : Bool) (ignDirs : List String)
    (a : List (String × String)) (b : List (String × List String)) : List String :=
  (a.map Prod.fst).filter (fun file =>
    if dup then specClassifiedMatch useIgnore ignDirs b (getHash a file)
    else !(specClassifiedMatch useIgnore ignDirs b (getHash a file)))

/-- C8 counterexample: tree A holds `p` with digest `h`; B's only `h` path
lies under the excluded directory `/ex`. Per the claim the emptied match
list means "no match", so `p` is A-only and default mode must report it; the
code's default mode tests only raw membership of `h` in B and reports
nothing. -/
theorem default_mode_skips_filtered_matches_cex :
    differReport false true ["/ex"] [("p", "h")] [("h", ["/ex/q"])] = [] ∧
      specReport false true ["/ex"] [("p", "h")] [("h", ["/ex/q"])] = ["p"] := by
  constructor <;> decide

/-- C8 (amended): each A path is classified by raw membership of its digest
in B's HashIndex. Dup mode prints exactly the files whose digest has a
B-group that is nonempty after prefix filtering; default mode prints exactly
the files whose digest has no B-group at all — the prefix filter plays no
role in default mode, so a file whose whole B-group lies under an excluded
directory is reported in neither mode. -/
theorem differ_report_characterization (useIgnore : Bool)
    (ignDirs : List String) (a : List (String × String))
    (b : List (String × List String)) (file : String) :
    (file ∈ differReport true useIgnore ignDirs a b ↔
      file ∈ a.map Prod.fst ∧
        ∃ files, findGroup b (getHash a file) = some files ∧
          (if useIgnore then ignDirs.foldl removeWithPrefix files
           else files).length ≠ 0) ∧
    (file ∈ differReport false useIgnore ignDirs a b ↔
      file ∈ a.map Prod.fst ∧ findGroup b (getHash a file) = none) := by
  cases hfg : findGroup b (getHash a file) with
  | none =>
      constructor <;>
        simp [differReport, List.mem_filter, differReports, hfg,
          foldl_removeWithPrefix_nil]
  | some files =>
      constructor <;>
        simp [differReport, List.mem_filter, differReports, hfg]

/-- Argument resolution of the differ's `main`: two positional arguments are
(dir1, dir2); with one argument dir1 stays "." and dir2 is the argument;
with none both stay "." — fatal ("no directories specified") unless `-d`
was given. -/
def resolveDirs (dupFlag : Bool) (args : List String) :
    Except String (String × String) :=
  match args with
  | a :: b :: _ => Except.ok (a, b)
  | [a] => Except.ok (".", a)
  | [] =>
      if dupFlag then Except.ok (".", ".")
      else Except.error "no directories specified"

/-- The same-directory check of the differ's `main`: identical directories
are fatal unless `-d` was given, in which case the run proceeds in
single-tree (intra-tree) duplicate mode (`useOneDir = true`). -/
def checkSameDir (dupFlag : Bool) (d : String × String) :
    Except String (String × String × Bool) :=
  if d.1 = d.2 then
    if dupFlag then Except.ok (d.1, d.2, true)
    else Except.error "same directory specified twice"
  else Except.ok (d.1, d.2, false)

/-- Configuration phase of the differ's `main`, before any pipeline runs. -/
def configure (dupFlag : Bool) (args : List String) :
    Except String (String × String × Bool) :=
  (resolveDirs dupFlag args).bind (checkSameDir dupFlag)

/-- Intra-tree duplicate report (the `useOneDir` branch of `main`): digest
groups with more than one member. -/
def intraDupReport (b : List (String × List String)) :
    List (String × List String) :=
  b.filter (fun g => g.2.length > 1)

/-- Output of a differ run: intra-tree duplicate groups or the two-tree
file report. -/
inductive DifferOut : Type where
  | intra (groups : List (String × List String)) : DifferOut
  | files (names : List String) : DifferOut
deriving DecidableEq, Repr

/-- The differ's `main` after flag parsing: resolve and check the directory
arguments — a configuration error is fatal before the `searchTree1` /
`searchTree2` pipelines start — then build both indices with the given
`walk` and render the selected report. The traversal is a parameter so the
theorems can quantify over it: on a configuration error the result does not
depend on `walk` at all. -/
def mainDiffer (dupFlag useIgnore : Bool) (ignDirs : List String)
    (args : List String)
    (walk : String → String →
      List (String × String) × List (String × List String)) :
    Except String DifferOut :=
  match configure dupFlag args with
  | Except.error e => Except.error e
  | Except.ok (d1, d2, one) =>
      if one then Except.ok (DifferOut.intra (intraDupReport (walk d1 d2).2))
      else Except.ok
        (DifferOut.files (differReport dupFlag useIgnore ignDirs
          (walk d1 d2).1 (walk d1 d2).2))

/-- C9: when the resolved directory arguments are the same path, default
("missing from") mode — which needs two distinct trees — is rejected fatally
before any traversal (the result is the configuration error no matter what
any walk would return), while an explicitly requested duplicate mode makes
the run proceed in intra-tree duplicate mode over the single tree. -/
theorem same_dir_config_check (useIgnore : Bool) (ignDirs : List String)
    (args : List String) (d : String)
    (walk : String → String →
      List (String × String) × List (String × List String)) :
    (resolveDirs false args = Except.ok (d, d) →
      mainDiffer false useIgnore ignDirs args walk =
        Except.error "same directory specified twice") ∧
    (resolveDirs true args = Except.ok (d, d) →
      mainDiffer true useIgnore ignDirs args walk =
        Except.ok (DifferOut.intra (intraDupReport (walk d d).2))) := by
  constructor <;> intro h <;>
    simp [mainDiffer, configure, h, checkSameDir, Except.bind]

theorem same_dir_config_check_witness :
    (resolveDirs false ["a", "a"] = Except.ok ("a", "a") ∧
      mainDiffer false false [] ["a", "a"] (fun _ _ => ([], [])) =
        Except.error "same directory specified twice") ∧
    (resolveDirs true ["a", "a"] = Except.ok ("a", "a") ∧
      mainDiffer true false [] ["a", "a"] (fun _ _ => ([], [])) =
        Except.ok (DifferOut.intra (intraDupReport ([] : List (String × List String))))) := by
  obtain ⟨h1, h2⟩ := same_dir_config_check false [] ["a", "a"] "a" (fun _ _ => ([], []))
  exact ⟨⟨rfl, h1 rfl⟩, ⟨rfl, h2 rfl⟩⟩
